import Mathlib

/-!
Verification of the AquaGen repository: a shallow embedding of the numeric
normalization pipeline (`deepechoes/utils/image_transforms.py`) and of the
adversarial training-loop controller (`gans_archs/base.py`), together with
theorems settling the specification's claims about them.

Numeric arrays are embedded as lists of rationals (exact arithmetic stands
in for floating point, so "up to floating-point tolerance" becomes exact
equality); the row-wise statistical normalization, which divides by a square
root, is embedded over the reals.
-/

/-! ### Normalizer: `image_transforms.py` -/

/-- Empirical maximum of an array, `matrix.max()` (0 on the empty array,
which the source never feeds it). -/
def arrMax : List ℚ → ℚ
  | [] => 0
  | x :: xs => xs.foldl max x

/-- Empirical minimum of an array, `matrix.min()`. -/
def arrMin : List ℚ → ℚ
  | [] => 0
  | x :: xs => xs.foldl min x

/-- Source `scale_to_range(matrix, new_min=-1, new_max=1)`: maps the matrix
linearly from its own empirical `[min, max]` onto `[new_min, new_max]`:
`normalized = (matrix - original_min) / (original_max - original_min)`,
`scaled = normalized * (new_max - new_min) + new_min`, applied elementwise. -/
def scale_to_range (matrix : List ℚ) (new_min new_max : ℚ) : List ℚ :=
  let original_max := arrMax matrix
  let original_min := arrMin matrix
  matrix.map (fun v =>
    (v - original_min) / (original_max - original_min) * (new_max - new_min) + new_min)

/-- Return value of `unscale_data(data, min_val=0, max_val=1)`:
`data += 1; data /= 2; return data * (max_val - min_val) + min_val`,
elementwise.  (The in-place mutation of the argument is modelled separately
by `unscale_data_run`.) -/
def unscale_data (data : List ℚ) (min_val max_val : ℚ) : List ℚ :=
  let d1 := data.map (fun x => x + 1)
  let d2 := d1.map (fun x => x / 2)
  d2.map (fun v => v * (max_val - min_val) + min_val)

/-- State-passing embedding of `unscale_data` exposing its frame effect:
`data += 1` and `data /= 2` are in-place updates of the caller's array, while
the final `data * (max_val - min_val) + min_val` builds a fresh array.  The
first component is the buffer's contents after the call (what the caller's
array now holds); the second is the returned value. -/
def unscale_data_run (data : List ℚ) (min_val max_val : ℚ) : List ℚ × List ℚ :=
  let buf1 := data.map (fun x => x + 1)
  let buf2 := buf1.map (fun x => x / 2)
  (buf2, buf2.map (fun v => v * (max_val - min_val) + min_val))

/-! #### Min/max fold lemmas -/

theorem foldl_min_le_init (xs : List ℚ) : ∀ a : ℚ, xs.foldl min a ≤ a := by
  induction xs with
  | nil => intro a; exact le_refl a
  | cons x xs ih =>
    intro a
    exact le_trans (ih (min a x)) (min_le_left a x)

theorem foldl_min_le_mem (xs : List ℚ) : ∀ (a v : ℚ), v ∈ xs → xs.foldl min a ≤ v := by
  induction xs with
  | nil => intro a v hv; cases hv
  | cons x xs ih =>
    intro a v hv
    rcases List.mem_cons.mp hv with h | h
    · subst h
      exact le_trans (foldl_min_le_init xs (min a v)) (min_le_right a v)
    · exact ih (min a x) v h

theorem init_le_foldl_max (xs : List ℚ) : ∀ a : ℚ, a ≤ xs.foldl max a := by
  induction xs with
  | nil => intro a; exact le_refl a
  | cons x xs ih =>
    intro a
    exact le_trans (le_max_left a x) (ih (max a x))

theorem mem_le_foldl_max (xs : List ℚ) : ∀ (a v : ℚ), v ∈ xs → v ≤ xs.foldl max a := by
  induction xs with
  | nil => intro a v hv; cases hv
  | cons x xs ih =>
    intro a v hv
    rcases List.mem_cons.mp hv with h | h
    · subst h
      exact le_trans (le_max_right a v) (init_le_foldl_max xs (max a v))
    · exact ih (max a x) v h

theorem arrMin_le_mem (m : List ℚ) (v : ℚ) (hv : v ∈ m) : arrMin m ≤ v := by
  cases m with
  | nil => cases hv
  | cons x xs =>
    rcases List.mem_cons.mp hv with h | h
    · subst h; exact foldl_min_le_init xs v
    · exact foldl_min_le_mem xs x v h

theorem mem_le_arrMax (m : List ℚ) (v : ℚ) (hv : v ∈ m) : v ≤ arrMax m := by
  cases m with
  | nil => cases hv
  | cons x xs =>
    rcases List.mem_cons.mp hv with h | h
    · subst h; exact init_le_foldl_max xs v
    · exact mem_le_foldl_max xs x v h

theorem arrMin_le_arrMax (m : List ℚ) (hm : m ≠ []) : arrMin m ≤ arrMax m := by
  cases m with
  | nil => exact absurd rfl hm
  | cons x xs =>
    exact le_trans (foldl_min_le_init xs x) (init_le_foldl_max xs x)

theorem scale_to_range_length (m : List ℚ) (a b : ℚ) :
    (scale_to_range m a b).length = m.length := by
  simp [scale_to_range]

/-- Claim C4: for every input matrix whose maximum differs from its minimum
and every target range `[new_min, new_max]` (so `new_min ≤ new_max`), every
element of `scale_to_range matrix new_min new_max` lies within
`[new_min, new_max]`; positions holding the original minimum map exactly to
`new_min`, and positions holding the original maximum map exactly to
`new_max`. -/
theorem scale_to_range_bounds (m : List ℚ) (a b : ℚ)
    (hne : arrMax m ≠ arrMin m) (hab : a ≤ b)
    (i : ℕ) (hi : i < m.length) :
    (a ≤ (scale_to_range m a b).get ⟨i, by rw [scale_to_range_length]; exact hi⟩ ∧
      (scale_to_range m a b).get ⟨i, by rw [scale_to_range_length]; exact hi⟩ ≤ b) ∧
    (m.get ⟨i, hi⟩ = arrMin m →
      (scale_to_range m a b).get ⟨i, by rw [scale_to_range_length]; exact hi⟩ = a) ∧
    (m.get ⟨i, hi⟩ = arrMax m →
      (scale_to_range m a b).get ⟨i, by rw [scale_to_range_length]; exact hi⟩ = b) := by
  have hm : m ≠ [] := by
    intro h
    subst h
    exact absurd hi (by simp)
  have hlt : arrMin m < arrMax m :=
    lt_of_le_of_ne (arrMin_le_arrMax m hm) (Ne.symm hne)
  have hpos : 0 < arrMax m - arrMin m := sub_pos.mpr hlt
  have hv : m.get ⟨i, hi⟩ ∈ m := List.get_mem m i hi
  have hget : (scale_to_range m a b).get ⟨i, by rw [scale_to_range_length]; exact hi⟩ =
      (m.get ⟨i, hi⟩ - arrMin m) / (arrMax m - arrMin m) * (b - a) + a := by
    simp [scale_to_range]
  set v := m.get ⟨i, hi⟩ with hvdef
  have ht0 : 0 ≤ (v - arrMin m) / (arrMax m - arrMin m) :=
    div_nonneg (sub_nonneg.mpr (arrMin_le_mem m v hv)) (le_of_lt hpos)
  have ht1 : (v - arrMin m) / (arrMax m - arrMin m) ≤ 1 := by
    rw [div_le_one hpos]
    exact sub_le_sub_right (mem_le_arrMax m v hv) (arrMin m)
  refine ⟨⟨?_, ?_⟩, ?_, ?_⟩
  · rw [hget]
    have : 0 ≤ (v - arrMin m) / (arrMax m - arrMin m) * (b - a) :=
      mul_nonneg ht0 (sub_nonneg.mpr hab)
    linarith
  · rw [hget]
    have : (v - arrMin m) / (arrMax m - arrMin m) * (b - a) ≤ 1 * (b - a) :=
      mul_le_mul_of_nonneg_right ht1 (sub_nonneg.mpr hab)
    linarith
  · intro hmin
    rw [hget, hmin]
    simp
  · intro hmax
    rw [hget, hmax]
    rw [div_self (ne_of_gt hpos)]
    ring

/-- Witness for C4 at the concrete matrix `[0, 2]` with target range
`[-1, 1]` and index 0 (which holds the original minimum). -/
theorem scale_to_range_bounds_witness :
    arrMax [(0 : ℚ), 2] ≠ arrMin [(0 : ℚ), 2] ∧ (-1 : ℚ) ≤ 1 ∧ 0 < [(0 : ℚ), 2].length ∧
    ((-1 ≤ (scale_to_range [(0 : ℚ), 2] (-1) 1).get ⟨0, by rw [scale_to_range_length]; decide⟩ ∧
      (scale_to_range [(0 : ℚ), 2] (-1) 1).get ⟨0, by rw [scale_to_range_length]; decide⟩ ≤ 1) ∧
    ([(0 : ℚ), 2].get ⟨0, by decide⟩ = arrMin [(0 : ℚ), 2] →
      (scale_to_range [(0 : ℚ), 2] (-1) 1).get ⟨0, by rw [scale_to_range_length]; decide⟩ = -1) ∧
    ([(0 : ℚ), 2].get ⟨0, by decide⟩ = arrMax [(0 : ℚ), 2] →
      (scale_to_range [(0 : ℚ), 2] (-1) 1).get ⟨0, by rw [scale_to_range_length]; decide⟩ = 1)) :=
  ⟨by decide, by norm_num, by decide,
    scale_to_range_bounds [(0 : ℚ), 2] (-1) 1 (by decide) (by norm_num) 0 (by decide)⟩

/-- Claim C1: for a non-constant matrix `x`, composing the forward scaling
into `[-1, 1]` with the inverse, `unscale_data (scale_to_range x (-1) 1)
min_val max_val`, yields exactly `x` rescaled affinely into
`[min_val, max_val]` — that is, `scale_to_range x min_val max_val` (in
particular, with the defaults `min_val = 0, max_val = 1`, it is `x` mapped
into `[0, 1]`).  In exact rational arithmetic the equality is on the nose. -/
theorem unscale_of_scale_roundtrip (x : List ℚ) (min_val max_val : ℚ)
    (_hne : arrMax x ≠ arrMin x) :
    unscale_data (scale_to_range x (-1) 1) min_val max_val =
      scale_to_range x min_val max_val := by
  unfold unscale_data scale_to_range
  simp only [List.map_map]
  apply List.map_congr_left
  intro v _
  simp only [Function.comp]
  ring

/-- Witness for C1 at the concrete non-constant matrix `[0, 2]` with
`min_val = 0, max_val = 1`. -/
theorem unscale_of_scale_roundtrip_witness :
    arrMax [(0 : ℚ), 2] ≠ arrMin [(0 : ℚ), 2] ∧
    unscale_data (scale_to_range [(0 : ℚ), 2] (-1) 1) 0 1 =
      scale_to_range [(0 : ℚ), 2] 0 1 :=
  ⟨by decide, unscale_of_scale_roundtrip [(0 : ℚ), 2] 0 1 (by decide)⟩

/-- Claim C10: `unscale_data` mutates its argument in place: after the call,
the caller's buffer holds `(data + 1) / 2` elementwise (the result of the
in-place `+=` and `/=`), only the final affine map is computed on a fresh
value (the returned array applies `· * (max_val - min_val) + min_val` to the
buffer), and there are inputs on which the buffer is genuinely changed. -/
theorem unscale_data_mutates_buffer :
    (∀ (data : List ℚ) (min_val max_val : ℚ),
      (unscale_data_run data min_val max_val).1 = data.map (fun x => (x + 1) / 2) ∧
      (unscale_data_run data min_val max_val).2 =
        (unscale_data_run data min_val max_val).1.map
          (fun v => v * (max_val - min_val) + min_val) ∧
      (unscale_data_run data min_val max_val).2 = unscale_data data min_val max_val) ∧
    ∃ data : List ℚ, (unscale_data_run data 0 1).1 ≠ data := by
  constructor
  · intro data min_val max_val
    refine ⟨?_, rfl, rfl⟩
    simp [unscale_data_run, List.map_map, Function.comp]
  · refine ⟨[0], ?_⟩
    simp [unscale_data_run]

/-! ### Row-wise normalization: `normalize_to_zero_mean_unit_variance` -/

/-- Mean `np.mean(row)`: arithmetic mean of a row (0 on the empty row, matching
the convention `0 / 0 = 0`). -/
noncomputable def npMean (row : List ℝ) : ℝ := row.sum / row.length

/-- Population variance of a row, `np.var` with the default `ddof=0`. -/
noncomputable def npVar (row : List ℝ) : ℝ :=
  ((row.map (fun x => (x - npMean row) ^ 2)).sum) / row.length

/-- Standard deviation `np.std(row)`: the square root of the population variance. -/
noncomputable def npStd (row : List ℝ) : ℝ := Real.sqrt (npVar row)

/-- Source `normalize_to_zero_mean_unit_variance(data, clip_std=False)`: subtracts
each row's mean and divides by its standard deviation (`axis=1` with
`keepdims=True` broadcasts the row statistics back over that row); when
`clip_std` is set, the z-scored result is further divided by 3. -/
noncomputable def normalize_to_zero_mean_unit_variance
    (data : List (List ℝ)) (clip_std : Bool) : List (List ℝ) :=
  data.map (fun row =>
    let mean := npMean row
    let std := npStd row
    let normalized_data := row.map (fun x => (x - mean) / std)
    if clip_std then normalized_data.map (fun x => x / 3) else normalized_data)

theorem sum_map_div (l : List ℝ) (f : ℝ → ℝ) (c : ℝ) :
    (l.map (fun x => f x / c)).sum = (l.map f).sum / c := by
  induction l with
  | nil => simp
  | cons x xs ih => simp [ih, add_div]

theorem sum_map_sub_const (l : List ℝ) (c : ℝ) :
    (l.map (fun x => x - c)).sum = l.sum - l.length * c := by
  induction l with
  | nil => simp
  | cons x xs ih =>
    simp only [List.map_cons, List.sum_cons, ih, List.length_cons]
    push_cast
    ring

theorem npVar_nonneg (row : List ℝ) : 0 ≤ npVar row := by
  apply div_nonneg
  · apply List.sum_nonneg
    intro x hx
    rcases List.mem_map.mp hx with ⟨y, _, rfl⟩
    positivity
  · positivity

theorem npStd_sq (row : List ℝ) : npStd row ^ 2 = npVar row := by
  rw [npStd, Real.sq_sqrt (npVar_nonneg row)]

/-- On a row with nonzero standard deviation, the mean of the z-scored row
is zero.  Stated for a general scaling divisor `c ≠ 0` so that it covers
both the plain and the `clip_std` variants. -/
theorem npMean_zscore (row : List ℝ) (c : ℝ)
    (hrow : row ≠ []) :
    npMean (row.map (fun x => (x - npMean row) / c)) = 0 := by
  have hn0 : row.length ≠ 0 := by
    simpa [List.length_eq_zero] using hrow
  have hn : (row.length : ℝ) ≠ 0 := Nat.cast_ne_zero.mpr hn0
  have hsum : (row.map (fun x => (x - npMean row) / c)).sum = 0 := by
    rw [sum_map_div, sum_map_sub_const]
    rw [npMean, mul_div_cancel₀ _ hn]
    simp
  rw [npMean, hsum, List.length_map, zero_div]

theorem npVar_zscore (row : List ℝ) (c : ℝ)
    (hrow : row ≠ []) (_hc : c ≠ 0) :
    npVar (row.map (fun x => (x - npMean row) / c)) = npVar row / c ^ 2 := by
  have hmean := npMean_zscore row c hrow
  rw [npVar, hmean, List.length_map, List.map_map]
  have : ((fun x => (x - 0) ^ 2) ∘ fun x => (x - npMean row) / c) =
      fun x => ((x - npMean row) ^ 2) / c ^ 2 := by
    funext x
    simp [div_pow]
  rw [this, sum_map_div, npVar]
  ring

/-- Claim C5: for a 2D input whose every row has nonzero standard deviation,
each output row of the row-wise normalization has mean exactly 0 and
standard deviation exactly 1, or exactly 1/3 when `clip_std = true`
(exact real arithmetic stands in for "approximately"). -/
theorem normalize_rowwise_mean_std (data : List (List ℝ)) (clip_std : Bool)
    (h : ∀ row ∈ data, npStd row ≠ 0) :
    ∀ out ∈ normalize_to_zero_mean_unit_variance data clip_std,
      npMean out = 0 ∧ npStd out = (if clip_std then (1 : ℝ) / 3 else 1) := by
  intro out hout
  rw [normalize_to_zero_mean_unit_variance] at hout
  rcases List.mem_map.mp hout with ⟨row, hrow, heq⟩
  have hstd : npStd row ≠ 0 := h row hrow
  have hrow_ne : row ≠ [] := by
    intro hnil
    apply hstd
    rw [hnil, npStd, npVar]
    simp
  have hvar_pos : 0 < npVar row := by
    rcases lt_or_eq_of_le (npVar_nonneg row) with hlt | heq2
    · exact hlt
    · exact absurd (by rw [npStd, ← heq2, Real.sqrt_zero]) hstd
  cases clip_std with
  | false =>
    have heq' : out = row.map (fun x => (x - npMean row) / npStd row) := by
      rw [← heq]
      rfl
    subst heq'
    refine ⟨npMean_zscore row (npStd row) hrow_ne, ?_⟩
    show npStd (row.map (fun x => (x - npMean row) / npStd row)) = 1
    have hv := npVar_zscore row (npStd row) hrow_ne hstd
    rw [npStd_sq, div_self (ne_of_gt hvar_pos)] at hv
    rw [npStd, hv, Real.sqrt_one]
  | true =>
    have heq' : out = row.map (fun x => (x - npMean row) / (npStd row * 3)) := by
      rw [← heq]
      simp [List.map_map, Function.comp, div_div]
    subst heq'
    refine ⟨npMean_zscore row (npStd row * 3) hrow_ne, ?_⟩
    show npStd (row.map (fun x => (x - npMean row) / (npStd row * 3))) = 1 / 3
    have hc3 : npStd row * 3 ≠ 0 := by
      intro hz
      rcases mul_eq_zero.mp hz with hz | hz
      · exact hstd hz
      · norm_num at hz
    have hv := npVar_zscore row (npStd row * 3) hrow_ne hc3
    rw [mul_pow, npStd_sq] at hv
    have h9 : npVar row / (npVar row * 3 ^ 2) = 1 / 9 := by
      rw [div_mul_eq_div_div]
      rw [div_self (ne_of_gt hvar_pos)]
      norm_num
    rw [h9] at hv
    rw [npStd, hv]
    rw [show (1 : ℝ) / 9 = (1 / 3) ^ 2 by norm_num]
    rw [Real.sqrt_sq (by norm_num : (0 : ℝ) ≤ 1 / 3)]

/-- Witness for C5 at the concrete 2D input `[[0, 2]]` (one row with mean 1
and standard deviation 1) with `clip_std = false`. -/
theorem normalize_rowwise_mean_std_witness :
    (∀ row ∈ [[(0 : ℝ), 2]], npStd row ≠ 0) ∧
    ∀ out ∈ normalize_to_zero_mean_unit_variance [[(0 : ℝ), 2]] false,
      npMean out = 0 ∧ npStd out = (if false then (1 : ℝ) / 3 else 1) := by
  have hstd : npStd [(0 : ℝ), 2] = 1 := by
    have hvar : npVar [(0 : ℝ), 2] = 1 := by
      have hmean : npMean [(0 : ℝ), 2] = 1 := by
        rw [npMean]
        norm_num
      rw [npVar, hmean]
      norm_num
    rw [npStd, hvar, Real.sqrt_one]
  have hhyp : ∀ row ∈ [[(0 : ℝ), 2]], npStd row ≠ 0 := by
    intro row hr
    rcases List.mem_singleton.mp hr with rfl
    rw [hstd]
    norm_num
  exact ⟨hhyp, normalize_rowwise_mean_std [[(0 : ℝ), 2]] false hhyp⟩

/-! ### Training-loop controller: `gans_archs/base.py`, `BaseGAN.train_loop`

The loop is embedded as a pure state-passing function.  The external
collaborators are parameters: the batch source is `pull : ℕ → Except ε β`
(the i-th call to `next(batch_generator)`, which may raise), the
model-specific hook `train_step` is `step : β → Obs` (the per-batch scalars
it feeds into the three Keras metric trackers), and the checkpoint manager's
`save` is `save : ℕ → Option ε` (`none` = the write succeeded, `some e` =
it raised `e`; the source wraps it in no `try`).  The observable actions of
a run are recorded as a trace of events; the noise-vector choice does not
influence scheduling and is not modelled. -/

/-- One per-batch observation fed into the three metric trackers. -/
structure Obs where
  gen : ℚ
  disc : ℚ
  acc : ℚ

/-- A `tf.keras.metrics.Mean` tracker: a running total and an update count;
`reset_states` zeroes both, `result` is `total / count`. -/
structure MeanMetric where
  total : ℚ
  count : ℕ
deriving DecidableEq

/-- Update `update_state(v)`. -/
def MeanMetric.update (m : MeanMetric) (v : ℚ) : MeanMetric :=
  ⟨m.total + v, m.count + 1⟩

/-- Read `result()`: the arithmetic mean of the observed values (0 before any
observation, a case the loop never reads). -/
def MeanMetric.result (m : MeanMetric) : ℚ :=
  if m.count = 0 then 0 else m.total / m.count

/-- The three trackers constructed once in `BaseGAN.__init__`:
`_gen_loss`, `_disc_loss`, `_disc_accuracy`. -/
structure Accs where
  gen_loss : MeanMetric
  disc_loss : MeanMetric
  disc_accuracy : MeanMetric
deriving DecidableEq

/-- The freshly constructed trackers. -/
def Accs.init : Accs := ⟨⟨0, 0⟩, ⟨0, 0⟩, ⟨0, 0⟩⟩

/-- The three `reset_states()` calls at the top of each epoch: the same
tracker objects are zeroed in place (no new accumulator is constructed);
in the state-passing embedding this maps the current tracker state to the
fresh state. -/
def Accs.reset (_a : Accs) : Accs := Accs.init

/-- The per-batch metric feeding inside `train_step`. -/
def Accs.update (a : Accs) (o : Obs) : Accs :=
  ⟨a.gen_loss.update o.gen, a.disc_loss.update o.disc, a.disc_accuracy.update o.acc⟩

/-- The epoch-end summary read: `result()` of each tracker, in the order
`(avg_gen_loss, avg_disc_loss, avg_disc_accuracy)`. -/
def Accs.results (a : Accs) : ℚ × ℚ × ℚ :=
  (a.gen_loss.result, a.disc_loss.result, a.disc_accuracy.result)

/-- Observable actions of a training run: a batch pull (by global pull
index), a sample emission (`generate_and_plot_images`, tagged with the
epoch number passed to it), and a completed checkpoint save (tagged with
`checkpoint_number = epoch + 1`). -/
inductive Event where
  | pull (i : ℕ)
  | emit (epoch : ℕ)
  | ckpt (epoch : ℕ)
deriving DecidableEq

/-- Epoch tags of the sample emissions in a trace, in order. -/
def emitTags (tr : List Event) : List ℕ :=
  tr.filterMap (fun e => match e with | .emit t => some t | _ => none)

/-- Epoch tags of the completed checkpoint saves in a trace, in order. -/
def ckptTags (tr : List Event) : List ℕ :=
  tr.filterMap (fun e => match e with | .ckpt t => some t | _ => none)

/-- Number of batch pulls in a trace. -/
def pullCount (tr : List Event) : ℕ :=
  (tr.filterMap (fun e => match e with | .pull i => some i | _ => none)).length

/-- Result of the inner batch loop: its trace, the tracker state after it,
and the exception it raised, if any. -/
structure BatchResult (ε : Type) where
  trace : List Event
  accs : Accs
  error : Option ε

/-- Result of a (partial) run: trace, the history lists (zipped into one
list of per-epoch summary triples, chronological), the tracker state, and
the propagated exception, if any. -/
structure LoopResult (ε : Type) where
  trace : List Event
  history : List (ℚ × ℚ × ℚ)
  accs : Accs
  error : Option ε

/-- The inner loop `for _ in range(batch_generator.n_batches)`: starting at
global pull index `s`, perform `k` pulls, feeding each batch through the
train-step hook into the trackers.  A raise from `next(batch_generator)`
aborts the loop and propagates. -/
def batchLoop {ε β : Type} (pull : ℕ → Except ε β) (step : β → Obs) :
    ℕ → ℕ → Accs → BatchResult ε
  | _, 0, a => ⟨[], a, none⟩
  | s, k + 1, a =>
    match pull s with
    | .error e => ⟨[Event.pull s], a, some e⟩
    | .ok b =>
      let r := batchLoop pull step (s + 1) k (a.update (step b))
      ⟨Event.pull s :: r.trace, r.accs, r.error⟩

/-- The epoch loop `for epoch in range(epochs)`, with `e` epochs left and
`i` epochs already completed (so the running epoch is printed and tagged as
`i + 1`).  Per epoch: reset the trackers, run the batch loop, read the
summary and append it to the history lists, emit a sample grid tagged
`epoch + 1`, and when `(epoch + 1) % checkpoint_freq == 0` call
`ckpt_manager.save(checkpoint_number = epoch + 1)` — unguarded, so a raise
from either the batch source or the save propagates immediately. -/
def epochLoop {ε β : Type} (pull : ℕ → Except ε β) (step : β → Obs)
    (n freq : ℕ) (save : ℕ → Option ε) :
    ℕ → ℕ → Accs → LoopResult ε
  | 0, _, a => ⟨[], [], a, none⟩
  | e + 1, i, a =>
    let r := batchLoop pull step (i * n) n (Accs.reset a)
    match r.error with
    | some ex => ⟨r.trace, [], r.accs, some ex⟩
    | none =>
      let summary := r.accs.results
      let tr1 := r.trace ++ [Event.emit (i + 1)]
      if (i + 1) % freq = 0 then
        match save (i + 1) with
        | some ex => ⟨tr1, [summary], r.accs, some ex⟩
        | none =>
          let rest := epochLoop pull step n freq save e (i + 1) r.accs
          ⟨tr1 ++ Event.ckpt (i + 1) :: rest.trace, summary :: rest.history,
            rest.accs, rest.error⟩
      else
        let rest := epochLoop pull step n freq save e (i + 1) r.accs
        ⟨tr1 ++ rest.trace, summary :: rest.history, rest.accs, rest.error⟩

/-- Source `train_loop(batch_generator, epochs, checkpoint_freq, noise_vector)`:
run the epoch loop from fresh trackers, then — only if no exception
escaped — perform the unconditional post-loop emission
`generate_and_plot_images(generator, epochs, noise)`, tagged with the raw
`epochs` value. -/
def train_loop {ε β : Type} (pull : ℕ → Except ε β) (step : β → Obs)
    (n epochs freq : ℕ) (save : ℕ → Option ε) : LoopResult ε :=
  let r := epochLoop pull step n freq save epochs 0 Accs.init
  match r.error with
  | some ex => ⟨r.trace, r.history, r.accs, some ex⟩
  | none => ⟨r.trace ++ [Event.emit epochs], r.history, r.accs, none⟩

/-! #### Trace bookkeeping lemmas -/

@[simp] theorem emitTags_nil : emitTags [] = [] := rfl

@[simp] theorem emitTags_cons_pull (i : ℕ) (tr : List Event) :
    emitTags (Event.pull i :: tr) = emitTags tr := rfl

@[simp] theorem emitTags_cons_emit (t : ℕ) (tr : List Event) :
    emitTags (Event.emit t :: tr) = t :: emitTags tr := rfl

@[simp] theorem emitTags_cons_ckpt (t : ℕ) (tr : List Event) :
    emitTags (Event.ckpt t :: tr) = emitTags tr := rfl

@[simp] theorem emitTags_append (xs ys : List Event) :
    emitTags (xs ++ ys) = emitTags xs ++ emitTags ys := by
  induction xs with
  | nil => rfl
  | cons x xs ih =>
    cases x <;> simp [emitTags, List.filterMap_cons, ih]

@[simp] theorem emitTags_map_pull (l : List ℕ) : emitTags (l.map Event.pull) = [] := by
  induction l with
  | nil => rfl
  | cons x xs ih => simpa using ih

@[simp] theorem ckptTags_nil : ckptTags [] = [] := rfl

@[simp] theorem ckptTags_cons_pull (i : ℕ) (tr : List Event) :
    ckptTags (Event.pull i :: tr) = ckptTags tr := rfl

@[simp] theorem ckptTags_cons_emit (t : ℕ) (tr : List Event) :
    ckptTags (Event.emit t :: tr) = ckptTags tr := rfl

@[simp] theorem ckptTags_cons_ckpt (t : ℕ) (tr : List Event) :
    ckptTags (Event.ckpt t :: tr) = t :: ckptTags tr := rfl

@[simp] theorem ckptTags_append (xs ys : List Event) :
    ckptTags (xs ++ ys) = ckptTags xs ++ ckptTags ys := by
  induction xs with
  | nil => rfl
  | cons x xs ih =>
    cases x <;> simp [ckptTags, List.filterMap_cons, ih]

@[simp] theorem ckptTags_map_pull (l : List ℕ) : ckptTags (l.map Event.pull) = [] := by
  induction l with
  | nil => rfl
  | cons x xs ih => simpa using ih

/-! #### Batch-loop lemmas -/

/-- When every pull of the epoch succeeds, the batch loop performs exactly
the `k` pulls `s, s+1, …, s+k-1`, folds their observations into the
trackers, and raises nothing. -/
theorem batchLoop_ok {ε β : Type} (pull : ℕ → Except ε β) (step : β → Obs)
    (f : ℕ → β) :
    ∀ (k s : ℕ) (a : Accs),
      (∀ j, j < k → pull (s + j) = Except.ok (f (s + j))) →
      batchLoop pull step s k a =
        ⟨(List.range' s k).map Event.pull,
          ((List.range' s k).map (fun i => step (f i))).foldl Accs.update a, none⟩ := by
  intro k
  induction k with
  | zero => intro s a _; rfl
  | succ k ih =>
    intro s a hok
    have h0 : pull s = Except.ok (f s) := by
      have := hok 0 (Nat.succ_pos k)
      simpa using this
    have hok' : ∀ j, j < k → pull (s + 1 + j) = Except.ok (f (s + 1 + j)) := by
      intro j hj
      have h2 : s + 1 + j = s + (j + 1) := by omega
      rw [h2]
      exact hok (j + 1) (by omega)
    simp only [batchLoop, h0]
    rw [ih (s + 1) (a.update (step (f s))) hok']
    rw [List.range'_succ]
    simp [List.foldl_cons]

/-- When the `k`-th pull of the epoch (0-based) raises while all earlier
ones succeed, the batch loop propagates that exception. -/
theorem batchLoop_fail {ε β : Type} (pull : ℕ → Except ε β) (step : β → Obs)
    (f : ℕ → β) (err : ε) :
    ∀ (k n s : ℕ) (a : Accs), k < n →
      (∀ j, j < k → pull (s + j) = Except.ok (f (s + j))) →
      pull (s + k) = Except.error err →
      (batchLoop pull step s n a).error = some err := by
  intro k
  induction k with
  | zero =>
    intro n s a hkn _ hfail
    cases n with
    | zero => omega
    | succ m =>
      rw [Nat.add_zero] at hfail
      simp [batchLoop, hfail]
  | succ k ih =>
    intro n s a hkn hok hfail
    cases n with
    | zero => omega
    | succ m =>
      have h0 : pull s = Except.ok (f s) := by
        have := hok 0 (Nat.succ_pos k)
        simpa using this
      simp only [batchLoop, h0]
      apply ih m (s + 1) ((Accs.update a (step (f s)))) (by omega)
      · intro j hj
        have h2 : s + 1 + j = s + (j + 1) := by omega
        rw [h2]
        exact hok (j + 1) (by omega)
      · have h3 : s + 1 + k = s + (k + 1) := by omega
        rw [h3]
        exact hfail

/-! #### Metric accumulator lemmas -/

theorem foldl_meanMetric (vs : List ℚ) : ∀ m : MeanMetric,
    vs.foldl MeanMetric.update m = ⟨m.total + vs.sum, m.count + vs.length⟩ := by
  induction vs with
  | nil => intro m; simp
  | cons v vs ih =>
    intro m
    rw [List.foldl_cons, ih]
    simp only [MeanMetric.update, List.sum_cons, List.length_cons, MeanMetric.mk.injEq]
    constructor
    · ring
    · omega

theorem foldl_accs_gen (os : List Obs) : ∀ a : Accs,
    (os.foldl Accs.update a).gen_loss =
      (os.map Obs.gen).foldl MeanMetric.update a.gen_loss := by
  induction os with
  | nil => intro a; rfl
  | cons o os ih =>
    intro a
    rw [List.foldl_cons, ih, List.map_cons, List.foldl_cons]
    rfl

/-- Claim C6: within an epoch, after the `reset_states()` transition the
trackers start empty regardless of what the previous epoch left in them (the
same accumulator objects are zeroed, no new one is constructed — in the
state-passing embedding, `Accs.reset` of any state is the initial state),
and the epoch-end summary of the generator loss is the arithmetic mean
`(a1 + … + aN) / N` of that epoch's `N` per-batch observations. -/
theorem metric_epoch_mean_and_reset {ε β : Type} (pull : ℕ → Except ε β)
    (step : β → Obs) (f : ℕ → β) (n s : ℕ) (a : Accs)
    (hp : ∀ i, pull i = Except.ok (f i)) (hn : 0 < n) :
    ((batchLoop pull step s n (Accs.reset a)).accs.results).1 =
      ((List.range' s n).map (fun i => (step (f i)).gen)).sum / (n : ℚ) ∧
    Accs.reset a = Accs.init := by
  refine ⟨?_, rfl⟩
  rw [batchLoop_ok pull step f n s (Accs.reset a) (fun j _ => hp (s + j))]
  show ((((List.range' s n).map (fun i => step (f i))).foldl Accs.update
      Accs.init).results).1 = _
  simp only [Accs.results]
  rw [foldl_accs_gen, List.map_map]
  have hinit : Accs.init.gen_loss = ⟨0, 0⟩ := rfl
  rw [hinit, foldl_meanMetric]
  simp only [MeanMetric.result]
  have hcomp : (Obs.gen ∘ fun i => step (f i)) = fun i => (step (f i)).gen := rfl
  have hlen : ((List.range' s n).map fun i => (step (f i)).gen).length = n := by
    simp
  rw [hcomp, hlen, if_neg (by omega)]
  simp

/-! #### Concrete fixtures for witnesses and counterexamples -/

/-- A batch source that always yields a batch (the pull index, as a
rational). -/
def pullIdx : ℕ → Except Unit ℚ := fun i => Except.ok (i : ℚ)

/-- The batch each `pullIdx` call yields. -/
def idxBatch : ℕ → ℚ := fun i => (i : ℚ)

/-- A train-step hook that reports the batch itself as the generator loss. -/
def stepGen : ℚ → Obs := fun b => ⟨b, 0, 0⟩

/-- A checkpoint save that always succeeds. -/
def noSave : ℕ → Option Unit := fun _ => none

/-- Witness for C6 at a concrete 2-batch epoch: the observations are
`[0, 1]`, so the reported generator-loss mean is `(0 + 1) / 2`. -/
theorem metric_epoch_mean_and_reset_witness :
    (∀ i, pullIdx i = Except.ok (idxBatch i)) ∧ 0 < 2 ∧
    (((batchLoop pullIdx stepGen 0 2 (Accs.reset Accs.init)).accs.results).1 =
        ((List.range' 0 2).map (fun i => (stepGen (idxBatch i)).gen)).sum / (2 : ℚ) ∧
      Accs.reset Accs.init = Accs.init) :=
  ⟨fun _ => rfl, by decide,
    metric_epoch_mean_and_reset pullIdx stepGen idxBatch 2 0 Accs.init
      (fun _ => rfl) (by decide)⟩

/-- Counterexample to claim C2 as stated: with `epochs = 0` the loop body
never runs, but the unconditional post-loop call
`generate_and_plot_images(self.generator, epochs, noise)` still fires, so
the run performs a sample emission (tagged with epoch 0) — the claim's "no
sample emissions" is false on the code. -/
theorem train_loop_zero_epochs_emits :
    emitTags (train_loop pullIdx stepGen 1 0 5 noSave).trace ≠ [] := by
  decide

/-- Claim C2, amended: with `epoch_count = 0` the loop performs no batch
pulls, no checkpoint saves, records an empty history and raises nothing —
but it is not emission-free: the unconditional post-loop emission still
happens, exactly once, tagged with epoch 0. -/
theorem train_loop_zero_epochs {ε β : Type} (pull : ℕ → Except ε β)
    (step : β → Obs) (n freq : ℕ) (save : ℕ → Option ε) :
    train_loop pull step n 0 freq save =
      ⟨[Event.emit 0], [], Accs.init, none⟩ := rfl

/-- When every pull and every save succeeds, a run of `e` epochs starting
after `i` completed ones raises nothing, emits exactly one sample per epoch
tagged `i+1, …, i+e`, and saves exactly at the epochs divisible by
`checkpoint_freq`. -/
theorem epochLoop_ok {ε β : Type} (pull : ℕ → Except ε β) (step : β → Obs)
    (f : ℕ → β) (n freq : ℕ) (save : ℕ → Option ε)
    (hp : ∀ i, pull i = Except.ok (f i)) (hs : ∀ t, save t = none) :
    ∀ (e i : ℕ) (a : Accs),
      (epochLoop pull step n freq save e i a).error = none ∧
      emitTags (epochLoop pull step n freq save e i a).trace =
        List.range' (i + 1) e ∧
      ckptTags (epochLoop pull step n freq save e i a).trace =
        (List.range' (i + 1) e).filter (fun t => t % freq == 0) := by
  intro e
  induction e with
  | zero => intro i a; exact ⟨rfl, rfl, rfl⟩
  | succ e ih =>
    intro i a
    have hb := batchLoop_ok pull step f n (i * n) (Accs.reset a) (fun j _ => hp _)
    obtain ⟨ih1, ih2, ih3⟩ := ih (i + 1)
      (((List.range' (i * n) n).map (fun j => step (f j))).foldl Accs.update
        (Accs.reset a))
    by_cases hfr : (i + 1) % freq = 0
    · simp only [epochLoop, hb, hs (i + 1), hfr, if_true, eq_self_iff_true]
      refine ⟨ih1, ?_, ?_⟩
      · simp [ih2, List.range'_succ]
      · simp [ih3, List.range'_succ, List.filter_cons, hfr]
    · simp only [epochLoop, hb, hs (i + 1), if_neg hfr]
      refine ⟨ih1, ?_, ?_⟩
      · simp [ih2, List.range'_succ]
      · simp [ih3, List.range'_succ, List.filter_cons, hfr]

/-- Claim C3: a run with `epoch_count = 10`, `checkpoint_every = 5` and a
healthy batch source and checkpoint store saves exactly 2 checkpoints,
tagged with epochs 5 and 10, and performs exactly 11 sample emissions: one
at each of epochs 1 … 10 plus the unconditional post-loop emission, again
tagged with epoch 10. -/
theorem train_loop_ten_five_schedule {ε β : Type} (pull : ℕ → Except ε β)
    (step : β → Obs) (f : ℕ → β) (n : ℕ) (save : ℕ → Option ε)
    (hp : ∀ i, pull i = Except.ok (f i)) (hs : ∀ t, save t = none) :
    emitTags (train_loop pull step n 10 5 save).trace =
      [1, 2, 3, 4, 5, 6, 7, 8, 9, 10, 10] ∧
    ckptTags (train_loop pull step n 10 5 save).trace = [5, 10] := by
  obtain ⟨h1, h2, h3⟩ := epochLoop_ok pull step f n 5 save hp hs 10 0 Accs.init
  simp only [train_loop, h1]
  constructor
  · simp only [emitTags_append, h2]
    decide
  · simp only [ckptTags_append, h3]
    decide

/-- Witness for C3 on a concrete healthy batch source. -/
theorem train_loop_ten_five_schedule_witness :
    (∀ i, pullIdx i = Except.ok (idxBatch i)) ∧ (∀ t, noSave t = none) ∧
    (emitTags (train_loop pullIdx stepGen 1 10 5 noSave).trace =
        [1, 2, 3, 4, 5, 6, 7, 8, 9, 10, 10] ∧
      ckptTags (train_loop pullIdx stepGen 1 10 5 noSave).trace = [5, 10]) :=
  ⟨fun _ => rfl, fun _ => rfl,
    train_loop_ten_five_schedule pullIdx stepGen idxBatch 1 noSave
      (fun _ => rfl) (fun _ => rfl)⟩

/-- The per-epoch summary triple a fully completed epoch `t` contributes to
the history lists: the trackers are reset, fed the observations of batches
`t*n … t*n + n - 1`, and read. -/
def expectedSummary {β : Type} (f : ℕ → β) (step : β → Obs) (n t : ℕ) :
    ℚ × ℚ × ℚ :=
  (((List.range' (t * n) n).map (fun i => step (f i))).foldl Accs.update
    Accs.init).results

/-- If the batch source raises during epoch `i + d` (0-based) at its
`k`-th in-epoch pull, after `d` fully completed epochs, the exception
propagates and the history holds exactly the `d` completed epochs'
summaries. -/
theorem epochLoop_pull_fail {ε β : Type} (pull : ℕ → Except ε β)
    (step : β → Obs) (f : ℕ → β) (n freq : ℕ) (save : ℕ → Option ε)
    (err : ε) (k : ℕ) (hk : k < n) (hs : ∀ t, save t = none) :
    ∀ (d e i : ℕ) (a : Accs), d < e →
      (∀ j, j < (i + d) * n + k → pull j = Except.ok (f j)) →
      pull ((i + d) * n + k) = Except.error err →
      (epochLoop pull step n freq save e i a).error = some err ∧
      (epochLoop pull step n freq save e i a).history =
        (List.range' i d).map (fun t => expectedSummary f step n t) := by
  intro d
  induction d with
  | zero =>
    intro e i a hde hok hfail
    cases e with
    | zero => omega
    | succ e' =>
      have hfb : (batchLoop pull step (i * n) n (Accs.reset a)).error = some err := by
        apply batchLoop_fail pull step f err k n (i * n) (Accs.reset a) hk
        · intro j hj
          apply hok
          have h2 : (i + 0) * n = i * n := by ring_nf
          omega
        · have h3 : i * n + k = (i + 0) * n + k := by ring_nf
          rw [h3]
          exact hfail
      rcases hr : batchLoop pull step (i * n) n (Accs.reset a) with ⟨tr, a1, errb⟩
      rw [hr] at hfb
      have herr : errb = some err := hfb
      subst herr
      simp only [epochLoop, hr]
      exact ⟨by simp, rfl⟩
  | succ d ih =>
    intro e i a hde hok hfail
    cases e with
    | zero => omega
    | succ e' =>
      have hinner : ∀ j, j < n → pull (i * n + j) = Except.ok (f (i * n + j)) := by
        intro j hj
        apply hok
        have h1 : i * n + j < i * n + n := by omega
        have h2 : i * n + n = (i + 1) * n := by ring
        have h3 : (i + 1) * n ≤ (i + (d + 1)) * n :=
          Nat.mul_le_mul_right n (by omega)
        omega
      have hb := batchLoop_ok pull step f n (i * n) (Accs.reset a) hinner
      have hidx : (i + 1 + d) * n + k = (i + (d + 1)) * n + k := by ring_nf
      obtain ⟨ihe, ihh⟩ := ih e' (i + 1)
        (((List.range' (i * n) n).map (fun j => step (f j))).foldl Accs.update
          (Accs.reset a))
        (by omega)
        (by rw [hidx]; exact hok)
        (by rw [hidx]; exact hfail)
      simp only [Accs.reset] at ihe ihh
      by_cases hfr : (i + 1) % freq = 0
      · simp only [epochLoop, hb, hs (i + 1), hfr, if_true, eq_self_iff_true]
        refine ⟨ihe, ?_⟩
        simp [ihh, List.range'_succ, expectedSummary, Accs.reset]
      · simp only [epochLoop, hb, hs (i + 1), if_neg hfr]
        refine ⟨ihe, ?_⟩
        simp [ihh, List.range'_succ, expectedSummary, Accs.reset]

/-- Claim C7: if the batch source raises a storage-unrelated error
mid-epoch — at its `k`-th in-epoch pull of epoch `e` (0-based), after `e`
fully completed epochs — the training loop propagates that error to its
caller, and the history holds exactly the metric summaries of the `e`
fully completed prior epochs, with no partial entry for the interrupted
one. -/
theorem train_loop_pull_error_propagates {ε β : Type} (pull : ℕ → Except ε β)
    (step : β → Obs) (f : ℕ → β) (n freq epochs : ℕ) (save : ℕ → Option ε)
    (err : ε) (e k : ℕ)
    (hk : k < n) (he : e < epochs) (hs : ∀ t, save t = none)
    (hok : ∀ j, j < e * n + k → pull j = Except.ok (f j))
    (hfail : pull (e * n + k) = Except.error err) :
    (train_loop pull step n epochs freq save).error = some err ∧
    (train_loop pull step n epochs freq save).history =
      (List.range' 0 e).map (fun t => expectedSummary f step n t) := by
  obtain ⟨h1, h2⟩ := epochLoop_pull_fail pull step f n freq save err k hk hs
    e epochs 0 Accs.init he (by simpa using hok) (by simpa using hfail)
  simp only [train_loop, h1]
  exact ⟨by simp, h2⟩

/-- A batch source that yields on its first three pulls and raises on the
fourth. -/
def failPull3 : ℕ → Except Unit ℚ := fun i =>
  if i < 3 then Except.ok (i : ℚ) else Except.error ()

/-- Witness for C7: with 2 batches per epoch and `epochs = 2`, the source
raises at global pull 3 — the 2nd batch of the 2nd epoch — after one fully
completed epoch. -/
theorem train_loop_pull_error_propagates_witness :
    1 < 2 ∧ 1 < 2 ∧ (∀ t, noSave t = none) ∧
    (∀ j, j < 1 * 2 + 1 → failPull3 j = Except.ok (idxBatch j)) ∧
    failPull3 (1 * 2 + 1) = Except.error () ∧
    ((train_loop failPull3 stepGen 2 2 5 noSave).error = some () ∧
      (train_loop failPull3 stepGen 2 2 5 noSave).history =
        (List.range' 0 1).map (fun t => expectedSummary idxBatch stepGen 2 t)) :=
  ⟨by omega, by omega, fun _ => rfl,
    fun j hj => by simp [failPull3, idxBatch, if_pos (by omega : j < 3)],
    rfl,
    train_loop_pull_error_propagates failPull3 stepGen idxBatch 2 5 2 noSave () 1 1
      (by omega) (by omega) (fun _ => rfl)
      (fun j hj => by simp [failPull3, idxBatch, if_pos (by omega : j < 3)])
      rfl⟩

/-- If every pull succeeds but the checkpoint save raises at epoch
`c = i + d + 1` (with all earlier saves succeeding), the exception
propagates out of the epoch loop: the loop still performed epoch `c`'s
metric accounting (its summary is in the history) and its sample emission
(epochs `i+1 … c` are all emitted), but nothing runs afterwards. -/
theorem epochLoop_save_fail {ε β : Type} (pull : ℕ → Except ε β)
    (step : β → Obs) (f : ℕ → β) (n freq : ℕ) (save : ℕ → Option ε)
    (err : ε) (c : ℕ)
    (hp : ∀ i, pull i = Except.ok (f i))
    (hs : ∀ t, t ≠ c → save t = none) (hc : save c = some err)
    (hfr : c % freq = 0) :
    ∀ (d e i : ℕ) (a : Accs), i + d + 1 = c → d + 1 ≤ e →
      (epochLoop pull step n freq save e i a).error = some err ∧
      emitTags (epochLoop pull step n freq save e i a).trace =
        List.range' (i + 1) (d + 1) ∧
      (epochLoop pull step n freq save e i a).history.length = d + 1 := by
  intro d
  induction d with
  | zero =>
    intro e i a hic hde
    cases e with
    | zero => omega
    | succ e' =>
      have hb := batchLoop_ok pull step f n (i * n) (Accs.reset a) (fun j _ => hp _)
      have hieq : i + 1 = c := by omega
      have hfr' : (i + 1) % freq = 0 := by rw [hieq]; exact hfr
      have hsv : save (i + 1) = some err := by rw [hieq]; exact hc
      simp only [epochLoop, hb, hfr', if_true, eq_self_iff_true, hsv]
      refine ⟨by simp, ?_, by simp⟩
      simp
  | succ d ih =>
    intro e i a hic hde
    cases e with
    | zero => omega
    | succ e' =>
      have hb := batchLoop_ok pull step f n (i * n) (Accs.reset a) (fun j _ => hp _)
      obtain ⟨ih1, ih2, ih3⟩ := ih e' (i + 1)
        (((List.range' (i * n) n).map (fun j => step (f j))).foldl Accs.update
          (Accs.reset a))
        (by omega) (by omega)
      simp only [Accs.reset] at ih1 ih2 ih3
      have hne : i + 1 ≠ c := by omega
      have hsv : save (i + 1) = none := hs (i + 1) hne
      by_cases hfr2 : (i + 1) % freq = 0
      · simp only [epochLoop, hb, hfr2, if_true, eq_self_iff_true, hsv]
        refine ⟨ih1, ?_, ?_⟩
        · simp [ih2, List.range'_succ, Accs.reset]
        · simp [ih3, Accs.reset]
      · simp only [epochLoop, hb, if_neg hfr2, hsv]
        refine ⟨ih1, ?_, ?_⟩
        · simp [ih2, List.range'_succ, Accs.reset]
        · simp [ih3, Accs.reset]

/-- A batch source that always yields a (unit) batch. -/
def okPull : ℕ → Except Unit Unit := fun _ => Except.ok ()

/-- The batch each `okPull` call yields. -/
def unitBatch : ℕ → Unit := fun _ => ()

/-- A train-step hook with constant observations. -/
def unitStep : Unit → Obs := fun _ => ⟨0, 0, 0⟩

/-- A checkpoint save that raises exactly at epoch 5. -/
def failSave5 : ℕ → Option Unit := fun t => if t = 5 then some () else none

/-- Counterexample to claim C8 as stated: `ckpt_manager.save` is called
with no `try`, so with `epochs = 10`, `checkpoint_freq = 5` and a save that
raises at the epoch-5 boundary, the exception escapes `train_loop` (it is
not caught at the call site) and the run stops: only epochs 1 … 5 ever emit
samples — training does not continue to epoch 10. -/
theorem train_loop_save_failure_cex :
    (train_loop okPull unitStep 1 10 5 failSave5).error = some () ∧
    emitTags (train_loop okPull unitStep 1 10 5 failSave5).trace =
      [1, 2, 3, 4, 5] := by
  decide

/-- Claim C8, amended: a checkpoint save failure at a cadence boundary `c`
is not caught — it propagates out of the epoch loop and aborts the run (no
later epochs, no post-loop emission).  The failing epoch's metric
accounting and sample emission are not skipped (both happen before the save
attempt: the history has exactly `c` entries and epochs `1 … c` are all
emitted), and the failure is reported to the caller as the raised
exception, never silently treated as a success. -/
theorem train_loop_save_failure_aborts {ε β : Type} (pull : ℕ → Except ε β)
    (step : β → Obs) (f : ℕ → β) (n freq epochs : ℕ) (save : ℕ → Option ε)
    (err : ε) (c : ℕ)
    (hp : ∀ i, pull i = Except.ok (f i))
    (hs : ∀ t, t ≠ c → save t = none) (hc : save c = some err)
    (hfr : c % freq = 0) (hc1 : 1 ≤ c) (hce : c ≤ epochs) :
    (train_loop pull step n epochs freq save).error = some err ∧
    emitTags (train_loop pull step n epochs freq save).trace =
      List.range' 1 c ∧
    (train_loop pull step n epochs freq save).history.length = c := by
  obtain ⟨h1, h2, h3⟩ := epochLoop_save_fail pull step f n freq save err c
    hp hs hc hfr (c - 1) epochs 0 Accs.init (by omega) (by omega)
  have e2 : c - 1 + 1 = c := by omega
  rw [e2] at h2 h3
  simp only [train_loop, h1]
  exact ⟨by simp, h2, h3⟩

/-- Witness for C8 (amended) at the concrete run of
`train_loop_save_failure_cex`. -/
theorem train_loop_save_failure_aborts_witness :
    (∀ i, okPull i = Except.ok (unitBatch i)) ∧
    (∀ t, t ≠ 5 → failSave5 t = none) ∧ failSave5 5 = some () ∧
    5 % 5 = 0 ∧ 1 ≤ 5 ∧ 5 ≤ 10 ∧
    ((train_loop okPull unitStep 1 10 5 failSave5).error = some () ∧
      emitTags (train_loop okPull unitStep 1 10 5 failSave5).trace =
        List.range' 1 5 ∧
      (train_loop okPull unitStep 1 10 5 failSave5).history.length = 5) :=
  ⟨fun _ => rfl, fun t ht => by simp [failSave5, ht], rfl,
    by decide, by decide, by decide,
    train_loop_save_failure_aborts okPull unitStep unitBatch 1 5 10 failSave5 () 5
      (fun _ => rfl) (fun t ht => by simp [failSave5, ht]) rfl
      (by decide) (by decide) (by decide)⟩

/-! ### Sample emitter: `generate_and_plot_images` -/

/-- Modelled from the spec: the function `unnormalize_data` that
`gans_archs/base.py` imports from `utils.image_transforms` is absent from
the provided `image_transforms.py` sources.  Per the spec, the SampleEmitter
"applies the Normalizer's inverse transform" to each generator output — the
`unscale` operation with its default target range `[0, 1]`. -/
def unnormalize_data (data : List ℚ) : List ℚ := unscale_data data 0 1

/-- Source `generate_and_plot_images(model, epoch, input)`: run the generator in
inference mode (`model(input, training=False)`), then for each `i` in
`range(predictions.shape[0])` un-normalize the `i`-th output slice and
place it in the 4×4 grid; the finished grid is written to the artifact
tagged with the zero-padded epoch number.  The generator is a function of
its input and of the `training` flag; an output slice is a flattened list
of rationals; the result is the (epoch tag, grid) handed to the rendering
collaborator. -/
def generate_and_plot_images {ν : Type} (model : ν → Bool → List (List ℚ))
    (epoch : ℕ) (input : ν) : ℕ × List (List ℚ) :=
  let predictions := model input false
  let grid := (List.range predictions.length).map
    (fun i => unnormalize_data (predictions.getD i []))
  (epoch, grid)

theorem range_getD_map {α γ : Type} (g : α → γ) (d : α) :
    ∀ l : List α, (List.range l.length).map (fun i => g (l.getD i d)) = l.map g := by
  intro l
  induction l with
  | nil => rfl
  | cons x xs ih =>
    rw [List.length_cons, List.range_succ_eq_map, List.map_cons, List.map_map]
    have hcomp : ((fun i => g ((x :: xs).getD i d)) ∘ Nat.succ) =
        fun i => g (xs.getD i d) := by
      funext i
      rfl
    rw [hcomp, ih]
    rfl

/-- Claim C9: the sample emitter runs the generator in inference mode only
(`training=False`; two generators that agree in inference mode on the given
noise yield identical emissions, so the training-mode behaviour — parameter
updates included — is never exercised), applies the Normalizer's inverse
transform (`unnormalize_data`, the unscale operation) to each of the
generator's outputs, and hands the resulting grid together with the epoch
tag to the rendering collaborator. -/
theorem emit_inference_and_unscale {ν : Type}
    (model model2 : ν → Bool → List (List ℚ)) (epoch : ℕ) (input : ν)
    (hinf : model input false = model2 input false) :
    generate_and_plot_images model epoch input =
      generate_and_plot_images model2 epoch input ∧
    (generate_and_plot_images model epoch input).2 =
      (model input false).map unnormalize_data ∧
    (generate_and_plot_images model epoch input).1 = epoch := by
  refine ⟨?_, ?_, rfl⟩
  · simp only [generate_and_plot_images, hinf]
  · simp only [generate_and_plot_images]
    exact range_getD_map unnormalize_data [] (model input false)

/-- Witness for C9: the inference-mode behaviours of two concrete
generators agree on the given input, so their emissions coincide and equal
the unscaled inference outputs. -/
theorem emit_inference_and_unscale_witness :
    (fun (_ : Unit) (t : Bool) => if t then [[(5 : ℚ)]] else [[(0 : ℚ)]]) () false =
      (fun (_ : Unit) (_ : Bool) => [[(0 : ℚ)]]) () false ∧
    (generate_and_plot_images
        (fun (_ : Unit) (t : Bool) => if t then [[(5 : ℚ)]] else [[(0 : ℚ)]]) 3 () =
      generate_and_plot_images (fun (_ : Unit) (_ : Bool) => [[(0 : ℚ)]]) 3 () ∧
    (generate_and_plot_images
        (fun (_ : Unit) (t : Bool) => if t then [[(5 : ℚ)]] else [[(0 : ℚ)]]) 3 ()).2 =
      ((fun (_ : Unit) (t : Bool) => if t then [[(5 : ℚ)]] else [[(0 : ℚ)]]) () false).map
        unnormalize_data ∧
    (generate_and_plot_images
        (fun (_ : Unit) (t : Bool) => if t then [[(5 : ℚ)]] else [[(0 : ℚ)]]) 3 ()).1 = 3) :=
  ⟨rfl,
    emit_inference_and_unscale
      (fun (_ : Unit) (t : Bool) => if t then [[(5 : ℚ)]] else [[(0 : ℚ)]])
      (fun (_ : Unit) (_ : Bool) => [[(0 : ℚ)]]) 3 () rfl⟩
